import Mathlib

/-!
Shallow embedding of the salon-one-api scheduling core.

Times of day are modelled as minutes since midnight (`ℕ`): `parseTime`
maps an "HH:MM" string to `hours * 60 + minutes`, and `formatTime` is
injective with `parseTime (formatTime m) = m` for every natural `m`, so a
time string is represented by its parsed minute value and a
`Set<string>` of formatted times by a `List ℕ` with membership.
Loops of the form `while (cur < end) { ...; cur += interval }` are
written with an explicit iteration budget (`fuel`) so the definitions
are structurally recursive and computable; a budget of `endM - cur`
suffices whenever `interval ≥ 1` (each iteration advances `cur` by at
least one).  The non-terminating behaviour of those loops for
`interval ≤ 0` is modelled separately by `slotLoopF` over `ℤ`.
-/

namespace SalonOne

/-- `TimeRange` from `time.utils.ts` (fields `start`/`end`); `end` is a
Lean keyword so the second field is named `stop`. -/
structure TimeRange where
  start : ℕ
  stop : ℕ
  deriving DecidableEq, Repr

/-- `doTimeRangesOverlap` from `time.utils.ts`: the three-disjunct
overlap test on the parsed minute values of the two ranges. -/
def doTimeRangesOverlap (range1 range2 : TimeRange) : Bool :=
  (range1.start ≥ range2.start && range1.start < range2.stop) ||
  (range1.stop > range2.start && range1.stop ≤ range2.stop) ||
  (range1.start ≤ range2.start && range1.stop ≥ range2.stop)

/-- Modelled from the spec: the overlap predicate of spec section 4.1,
`a.start < b.end && b.start < a.end`, shared by the schedule validator
and the conflict detector. -/
def overlapSpec (a b : TimeRange) : Prop :=
  a.start < b.stop ∧ b.start < a.stop

instance (a b : TimeRange) : Decidable (overlapSpec a b) := by
  unfold overlapSpec; infer_instance

/-- The `while (current < endMinutes) { push current; current += interval }`
loop shared by `generateTimeSlots` and `getOccupiedSlots`
(`time.utils.ts`), with an explicit iteration budget `fuel` making it
structurally recursive.  `fuel = endM - cur` is an exact budget whenever
`0 < interval`. -/
def slotsGo (endM interval : ℕ) : ℕ → ℕ → List ℕ
  | 0, _ => []
  | fuel + 1, cur => if cur < endM then cur :: slotsGo endM interval fuel (cur + interval) else []

/-- `generateTimeSlots` from `time.utils.ts`: all slot start times
`start, start + interval, …` strictly below `endM`. -/
def generateTimeSlots (startM endM interval : ℕ) : List ℕ :=
  slotsGo endM interval (endM - startM) startM

/-- `getOccupiedSlots` from `time.utils.ts`: for each appointment the
slots `startTime, startTime + interval, …` strictly below its `endTime`
are added to the occupied set.  Membership in the returned list models
`Set.has` on the formatted strings (formatting is injective). -/
def getOccupiedSlots (appointments : List TimeRange) (interval : ℕ) : List ℕ :=
  (appointments.map (fun a => slotsGo a.stop interval (a.stop - a.start) a.start)).flatten

/-- `calculateEndTime` from `time.utils.ts`: start plus duration. -/
def calculateEndTime (startM duration : ℕ) : ℕ :=
  startM + duration

/-- `hasConsecutiveFreeSlots` from `time.utils.ts`: the `requiredSlots`
slots at indices `startIdx, startIdx + 1, …` must all exist in
`allSlots` and be unoccupied.  The source iterates `i` from `0` to
`requiredSlots - 1`; here the index advances through recursion on the
remaining count, which visits the same indices. -/
def hasConsecutiveFreeSlots (allSlots occupiedSlots : List ℕ) : ℕ → ℕ → Bool
  | _, 0 => true
  | startIdx, required + 1 =>
    match allSlots.get? startIdx with
    | none => false
    | some slot =>
      !occupiedSlots.contains slot &&
        hasConsecutiveFreeSlots allSlots occupiedSlots (startIdx + 1) required

/-- `calculateRequiredSlots` from `time.utils.ts`:
`Math.ceil(duration / interval)` on naturals (for `0 < interval`). -/
def calculateRequiredSlots (duration interval : ℕ) : ℕ :=
  (duration + interval - 1) / interval

/-- The index loop of `getAvailableSlots` (`time.utils.ts`): skip
occupied slots, keep a slot when enough consecutive free slots follow.
`fuel = allSlots.length - i` is an exact budget. -/
def availGo (allSlots occupiedSlots : List ℕ) (required : ℕ) : ℕ → ℕ → List ℕ
  | 0, _ => []
  | fuel + 1, i =>
    match allSlots.get? i with
    | none => []
    | some slot =>
      let rest := availGo allSlots occupiedSlots required fuel (i + 1)
      if occupiedSlots.contains slot then rest
      else if hasConsecutiveFreeSlots allSlots occupiedSlots i required then slot :: rest
      else rest

/-- `getAvailableSlots` from `time.utils.ts`. -/
def getAvailableSlots (allSlots occupiedSlots : List ℕ) (serviceDuration interval : ℕ) :
    List ℕ :=
  availGo allSlots occupiedSlots (calculateRequiredSlots serviceDuration interval)
    allSlots.length 0

/-- `canAccommodateService` from `time.utils.ts`: the service ending at
`slotTime + serviceDuration` must not pass `maxEndTime`. -/
def canAccommodateService (slotTime serviceDuration maxEndTime : ℕ) : Bool :=
  calculateEndTime slotTime serviceDuration ≤ maxEndTime

/-- The availability pipeline of `getAvailableTimeSlots` /
`calculateEmployeeAvailableSlots` (`appointments.service.ts`, steps
6–10): generate the slot grid over the schedule window, mark occupied
slots from the busy intervals, filter by consecutive free slots, then
keep slots whose service end does not pass the window end. -/
def availableStartTimes (windowStart windowEnd : ℕ) (busy : List TimeRange)
    (duration interval : ℕ) : List ℕ :=
  (getAvailableSlots (generateTimeSlots windowStart windowEnd interval)
      (getOccupiedSlots busy interval) duration interval).filter
    (fun slot => canAccommodateService slot duration windowEnd)

/-- `calculateDuration` from `time.utils.ts`: `parseTime end - parseTime start`
as a (possibly negative) integer. -/
def calculateDuration (startM endM : ℕ) : ℤ :=
  (endM : ℤ) - (startM : ℤ)

/-- Error tags for `validateScheduleTimes` (`schedule.validator.ts`);
they stand for the messages "Start time must be before end time",
"Shift must be at least 2 hours long" and "Shift cannot exceed 12 hours". -/
inductive ScheduleError
  | invalidRange
  | tooShort
  | tooLong
  deriving DecidableEq, Repr

/-- The `ValidationResult` record of `schedule.validator.ts`
(`{valid : boolean, error? : string}`) as a sum. -/
inductive ValidationResult
  | valid
  | invalid (error : ScheduleError)
  deriving DecidableEq, Repr

/-- `validateScheduleTimes` from `schedule.validator.ts`: start must be
strictly before end, and the duration must be between 2 and 12 hours. -/
def validateScheduleTimes (startM endM : ℕ) : ValidationResult :=
  if startM ≥ endM then .invalid .invalidRange
  else if calculateDuration startM endM < 120 then .invalid .tooShort
  else if calculateDuration startM endM > 720 then .invalid .tooLong
  else .valid

/-- The appointment status enumeration of `appointment.schema.ts`:
`pending`, `confirmed`, `in_progress`, `completed`, `cancelled`,
`no_show`. -/
inductive Status
  | pending
  | confirmed
  | inProgress
  | completed
  | cancelled
  | noShow
  deriving DecidableEq, Repr

/-- Modelled from the spec: the booking status transition table of spec
section 4.7 (pending→confirmed, pending→cancelled,
confirmed→in_progress, confirmed→cancelled, confirmed→no_show,
in_progress→completed, in_progress→no_show). -/
def specAllowedTransition : Status → Status → Bool
  | .pending, .confirmed => true
  | .pending, .cancelled => true
  | .confirmed, .inProgress => true
  | .confirmed, .cancelled => true
  | .confirmed, .noShow => true
  | .inProgress, .completed => true
  | .inProgress, .noShow => true
  | _, _ => false

/-- A stored appointment row, restricted to the columns `updateStatus`
touches. -/
structure StoredAppointment where
  id : ℕ
  status : Status
  cancellationReason : Option String
  deriving DecidableEq

/-- `findOne` / `appointmentsRepository.findById`: the stored row with
the given id, if any. -/
def findAppt (store : List StoredAppointment) (id : ℕ) : Option StoredAppointment :=
  store.find? (fun a => a.id = id)

/-- `updateStatus` from `appointments.service.ts`: look the appointment
up (`findOne` raises `NotFoundException` when absent, modelled as the
error case) and then unconditionally write the requested status and
cancellation reason. -/
def updateStatus (store : List StoredAppointment) (id : ℕ) (newStatus : Status)
    (reason : Option String) : Except Unit (List StoredAppointment) :=
  match findAppt store id with
  | none => .error ()
  | some _ =>
    .ok (store.map fun a =>
      if a.id = id then { a with status := newStatus, cancellationReason := reason } else a)

/-- The persisted rows touched by `create`: appointment row ids and
`(appointmentId, serviceId)` appointment-service rows. -/
structure Db where
  appointments : List ℕ
  appointmentServices : List (ℕ × ℕ)
  deriving DecidableEq, Repr

/-- The persistence tail of `create` (`appointments.service.ts`, steps
5–6): `appointmentsRepository.create` inserts the appointment row, then
`appointmentServicesRepository.createMany` inserts all service rows in
one statement.  A failing insert is modelled by the corresponding flag;
the source wraps neither call in a try/catch and issues no compensating
delete, so the state reached at the failure point is final.  Returns the
final store and whether the booking succeeded. -/
def persistBooking (db : Db) (apptId : ℕ) (serviceIds : List ℕ)
    (apptInsertFails svcInsertFails : Bool) : Db × Bool :=
  if apptInsertFails then (db, false)
  else
    let db1 : Db := { db with appointments := db.appointments ++ [apptId] }
    if svcInsertFails then (db1, false)
    else
      ({ db1 with
          appointmentServices :=
            db1.appointmentServices ++ serviceIds.map (fun s => (apptId, s)) },
        true)

/-- Error tags for the `create` pipeline of `appointments.service.ts`;
each stands for the exception thrown at the corresponding check. -/
inductive CreateError
  | salonNotFound
  | serviceNotFound
  | serviceWrongSalon
  | zeroTotalDuration
  | employeeNotFound
  | employeeWrongSalon
  | cannotPerform
  | employeeUnavailable
  | noEmployeeAvailable
  deriving DecidableEq, Repr

/-- One row of the `serviceAssignments` array built by `create`. -/
structure Assignment where
  employeeId : ℕ
  startM : ℕ
  stopM : ℕ
  orderIndex : ℕ
  deriving DecidableEq, Repr

/-- The assignment loop of `create` (`appointments.service.ts`, step 3):
`currentTime` starts at the overall start; each service gets the
interval `[currentTime, currentTime + duration)`, the employee is
resolved by `resolve` (either validation of the requested employee or
auto-assignment — both abstracted into one fallible function of the
order index and the sub-interval), and the cursor advances to the
sub-end regardless of which employee was resolved. -/
def buildAssignments (resolve : ℕ → ℕ → ℕ → Except CreateError ℕ) :
    List ℕ → ℕ → ℕ → Except CreateError (List Assignment)
  | [], _, _ => .ok []
  | duration :: rest, cur, idx =>
    let subEnd := calculateEndTime cur duration
    match resolve idx cur subEnd with
    | .error e => .error e
    | .ok emp =>
      match buildAssignments resolve rest subEnd (idx + 1) with
      | .error e => .error e
      | .ok l => .ok (⟨emp, cur, subEnd, idx⟩ :: l)

/-- One row of `employee_schedules` for a weekday
(`employee-schedule.schema.ts`): availability flag and working window. -/
structure DaySchedule where
  isAvailable : Bool
  startM : ℕ
  stopM : ℕ
  deriving DecidableEq, Repr

/-- `validateEmployeeAvailability` from `appointments.service.ts`: the
employee must have an available schedule for the weekday, the slot
`[startM, endM)` must lie inside the working window, and it must not
overlap (`slotStart < existingEnd && slotEnd > existingStart`) any
active appointment-service interval of that employee on the date. -/
def validateEmployeeAvailability (sched : Option DaySchedule) (busy : List TimeRange)
    (startM endM : ℕ) : Bool :=
  match sched with
  | none => false
  | some s =>
    if !s.isAvailable then false
    else if startM < s.startM || endM > s.stopM then false
    else busy.all fun b => !(startM < b.stop && endM > b.start)

/-- The employee-side environment of `create`: the salon's employee list
in `findBySalonId` order, the `employeeServicesRepository.exists`
capability relation, and per employee the weekday schedule and the
active appointment-service intervals on the date. -/
structure EmployeeEnv where
  salonEmployees : List ℕ
  canPerform : ℕ → ℕ → Bool
  schedOf : ℕ → Option DaySchedule
  busyOf : ℕ → List TimeRange

/-- `findAvailableEmployee` from `appointments.service.ts`: walk the
salon's employees in list order and return the first that can perform
the service and passes `validateEmployeeAvailability`; `none` when the
list is exhausted. -/
def findAvailableEmployee (env : EmployeeEnv) (serviceId startM endM : ℕ) : Option ℕ :=
  env.salonEmployees.find? fun e =>
    env.canPerform e serviceId &&
      validateEmployeeAvailability (env.schedOf e) (env.busyOf e) startM endM

/-- The salon configuration columns read by the booking path
(`salon.schema.ts`). -/
structure Salon where
  requireBookingApproval : Bool
  minAdvanceBookingHours : ℤ
  maxAdvanceBookingDays : ℤ
  deriving DecidableEq, Repr

/-- One entry of the `services` array of `CreateAppointmentDto`
(`service-booking.dto.ts`): the service and an optional requested
employee. -/
structure ServiceBooking where
  serviceId : ℕ
  employeeId : Option ℕ
  deriving DecidableEq, Repr

/-- The environment of `create`: the salon row, the service catalog
(`serviceId → (duration, salonId)`), the employee table
(`employeeId → salonId`), the employee-side environment, and the clock
(`new Date()`, in minutes).  `now` and the advance-booking columns are
fields of the environment because the source has them in scope; the
model of `create` below never reads them, mirroring the source, whose
`validateAppointmentDateTime` is defined but never invoked on this
path. -/
structure CreateEnv where
  salon : Option Salon
  services : ℕ → Option (ℕ × ℕ)
  empSalon : ℕ → Option ℕ
  employees : EmployeeEnv
  now : ℤ

/-- Step 2 of `create`: load every requested service, checking existence
and salon membership, and collect the duration snapshots. -/
def loadServices (env : CreateEnv) (salonId : ℕ) :
    List ServiceBooking → Except CreateError (List ℕ)
  | [] => .ok []
  | b :: rest =>
    match env.services b.serviceId with
    | none => .error .serviceNotFound
    | some (duration, serviceSalon) =>
      if serviceSalon ≠ salonId then .error .serviceWrongSalon
      else
        match loadServices env salonId rest with
        | .error e => .error e
        | .ok durations => .ok (duration :: durations)

/-- The per-service employee resolution of `create` (step 3): when the
booking names an employee, check existence, salon membership, capability
and availability; otherwise auto-assign via `findAvailableEmployee`. -/
def resolveEmployee (env : CreateEnv) (salonId : ℕ) (bookings : List ServiceBooking)
    (idx cur subEnd : ℕ) : Except CreateError ℕ :=
  match bookings.get? idx with
  | none => .error .serviceNotFound
  | some b =>
    match b.employeeId with
    | some eid =>
      match env.empSalon eid with
      | none => .error .employeeNotFound
      | some employeeSalon =>
        if employeeSalon ≠ salonId then .error .employeeWrongSalon
        else if !env.employees.canPerform eid b.serviceId then .error .cannotPerform
        else if !validateEmployeeAvailability (env.employees.schedOf eid)
            (env.employees.busyOf eid) cur subEnd then .error .employeeUnavailable
        else .ok eid
    | none =>
      match findAvailableEmployee env.employees b.serviceId cur subEnd with
      | none => .error .noEmployeeAvailable
      | some eid => .ok eid

/-- The validation pipeline of the multi-service `create`
(`appointments.service.ts`): salon lookup, service loading, the
zero-total-duration guard, then the sequential assignment loop.  The
result is the initial status and the planned assignments.  No temporal
check on `env.now` against the requested start appears anywhere on this
path. -/
def createModel (env : CreateEnv) (salonId : ℕ) (bookings : List ServiceBooking)
    (startM : ℕ) : Except CreateError (Status × List Assignment) :=
  match env.salon with
  | none => .error .salonNotFound
  | some salon =>
    match loadServices env salonId bookings with
    | .error e => .error e
    | .ok durations =>
      if durations.sum = 0 then .error .zeroTotalDuration
      else
        match buildAssignments (resolveEmployee env salonId bookings) durations startM 0 with
        | .error e => .error e
        | .ok assignments =>
          .ok (if salon.requireBookingApproval then Status.pending else Status.confirmed,
            assignments)

/-- Error tags for `validateAppointmentDateTime`
(`appointments.service.ts`); each stands for the exception message
thrown at the corresponding check. -/
inductive DateTimeError
  | inPast
  | tooSoon
  | tooFarAhead
  | dayOff
  | outsideWorkingHours
  | beyondWorkingHours
  deriving DecidableEq, Repr

/-- `validateAppointmentDateTime` from `appointments.service.ts`, with
datetimes in minutes: reject starts before `now`, starts whose gap to
`now` is below `minAdvanceBookingHours` hours (`hoursDiff < min` on
reals is exactly `gapMinutes < 60 * min`) or above
`maxAdvanceBookingDays` days (`daysDiff > max` is exactly
`gapMinutes > 1440 * max`), then check the weekday schedule and that
`[startM, startM + serviceDuration]` fits the working window. -/
def validateAppointmentDateTime (now appointmentDateTime : ℤ)
    (minAdvanceBookingHours maxAdvanceBookingDays : ℤ)
    (sched : Option DaySchedule) (startM serviceDuration : ℕ) :
    Except DateTimeError Unit :=
  if appointmentDateTime < now then .error .inPast
  else if appointmentDateTime - now < 60 * minAdvanceBookingHours then .error .tooSoon
  else if appointmentDateTime - now > 1440 * maxAdvanceBookingDays then .error .tooFarAhead
  else
    match sched with
    | none => .error .dayOff
    | some s =>
      if !s.isAvailable then .error .dayOff
      else if startM < s.startM || startM ≥ s.stopM then .error .outsideWorkingHours
      else if calculateEndTime startM serviceDuration > s.stopM then .error .beyondWorkingHours
      else .ok ()

/-- The slot loop of `generateTimeSlots` / `getOccupiedSlots` over `ℤ`
with arbitrary (possibly non-positive) `interval`, under a step budget:
`none` means the budget was exhausted with the loop still running, so
`(∀ fuel, … = none)` states that the loop never terminates. -/
def slotLoopF : ℕ → ℤ → ℤ → ℤ → Option (List ℤ)
  | 0, cur, endM, _ => if cur < endM then none else some []
  | fuel + 1, cur, endM, interval =>
    if cur < endM then (slotLoopF fuel (cur + interval) endM interval).map (cur :: ·)
    else some []

/-- `getOccupiedSlots` under a step budget shared by all appointment
loops: `none` as soon as one appointment's loop exhausts the budget. -/
def getOccupiedSlotsF (fuel : ℕ) (interval : ℤ) : List (ℤ × ℤ) → Option (List ℤ)
  | [] => some []
  | a :: rest =>
    match slotLoopF fuel a.1 a.2 interval with
    | none => none
    | some l => (getOccupiedSlotsF fuel interval rest).map (l ++ ·)

/-- The caller-side guard of `getAvailableTimeSlots`
(`appointments.service.ts`): `salon.defaultSlotInterval || 10` replaces
only a falsy value (the number `0`) by the default; every other value,
including negative ones, passes through. -/
def defaultSlotIntervalOr10 (defaultSlotInterval : ℤ) : ℤ :=
  if defaultSlotInterval = 0 then 10 else defaultSlotInterval

/-! Lemmas about the slot loop. -/

theorem slotsGo_get? {endM interval : ℕ} (hI : 0 < interval) :
    ∀ {fuel cur : ℕ}, endM - cur ≤ fuel → ∀ n,
      (slotsGo endM interval fuel cur).get? n =
        if cur + n * interval < endM then some (cur + n * interval) else none := by
  intro fuel
  induction fuel with
  | zero =>
    intro cur hf n
    have hcur : endM ≤ cur := by omega
    have : ¬ cur + n * interval < endM := by omega
    simp [slotsGo, this]
  | succ fuel ih =>
    intro cur hf n
    by_cases hlt : cur < endM
    · cases n with
      | zero => simp [slotsGo, hlt]
      | succ n =>
        have hf' : endM - (cur + interval) ≤ fuel := by omega
        have harith : cur + interval + n * interval = cur + (n + 1) * interval := by ring
        simp only [slotsGo, if_pos hlt, List.get?_cons_succ]
        rw [ih hf' n, harith]
    · have : ¬ cur + n * interval < endM := by
        have : 0 ≤ n * interval := Nat.zero_le _
        omega
      simp [slotsGo, hlt, this]

theorem slotsGo_mem {endM interval : ℕ} (hI : 0 < interval) {fuel cur : ℕ}
    (hf : endM - cur ≤ fuel) (s : ℕ) :
    s ∈ slotsGo endM interval fuel cur ↔ ∃ k, s = cur + k * interval ∧ s < endM := by
  rw [List.mem_iff_get?]
  constructor
  · rintro ⟨n, hn⟩
    rw [slotsGo_get? hI hf n] at hn
    by_cases h : cur + n * interval < endM
    · rw [if_pos h] at hn
      obtain rfl := Option.some.inj hn
      exact ⟨n, rfl, h⟩
    · rw [if_neg h] at hn; cases hn
  · rintro ⟨k, rfl, hs⟩
    exact ⟨k, by rw [slotsGo_get? hI hf k, if_pos hs]⟩

theorem generateTimeSlots_mem {startM endM interval : ℕ} (hI : 0 < interval) (s : ℕ) :
    s ∈ generateTimeSlots startM endM interval ↔
      ∃ k, s = startM + k * interval ∧ s < endM :=
  slotsGo_mem hI (Nat.le_refl _) s

theorem generateTimeSlots_get? {startM endM interval : ℕ} (hI : 0 < interval) (n : ℕ) :
    (generateTimeSlots startM endM interval).get? n =
      if startM + n * interval < endM then some (startM + n * interval) else none :=
  slotsGo_get? hI (Nat.le_refl _) n

theorem generateTimeSlots_pairwise {startM endM interval : ℕ} (hI : 0 < interval) :
    List.Pairwise (· < ·) (generateTimeSlots startM endM interval) := by
  rw [List.pairwise_iff_get]
  intro i j hij
  have hi := @generateTimeSlots_get? startM endM interval hI i.1
  have hj := @generateTimeSlots_get? startM endM interval hI j.1
  rw [List.get?_eq_get i.2] at hi
  rw [List.get?_eq_get j.2] at hj
  by_cases hci : startM + i.1 * interval < endM
  · by_cases hcj : startM + j.1 * interval < endM
    · rw [if_pos hci] at hi
      rw [if_pos hcj] at hj
      have hgi : (generateTimeSlots startM endM interval).get i = startM + i.1 * interval :=
        Option.some.inj hi
      have hgj : (generateTimeSlots startM endM interval).get j = startM + j.1 * interval :=
        Option.some.inj hj
      rw [hgi, hgj]
      have : i.1 < j.1 := hij
      exact Nat.add_lt_add_left ((Nat.mul_lt_mul_right hI).2 this) startM
    · rw [if_neg hcj] at hj; cases hj
  · rw [if_neg hci] at hi; cases hi

theorem getOccupiedSlots_mem {interval : ℕ} (hI : 0 < interval)
    (appointments : List TimeRange) (s : ℕ) :
    s ∈ getOccupiedSlots appointments interval ↔
      ∃ a ∈ appointments, ∃ k, s = a.start + k * interval ∧ s < a.stop := by
  unfold getOccupiedSlots
  rw [List.mem_flatten]
  constructor
  · rintro ⟨l, hl, hs⟩
    rcases List.mem_map.1 hl with ⟨a, ha, rfl⟩
    exact ⟨a, ha, (slotsGo_mem hI (Nat.le_refl _) s).1 hs⟩
  · rintro ⟨a, ha, hk⟩
    exact ⟨_, List.mem_map.2 ⟨a, ha, rfl⟩, (slotsGo_mem hI (Nat.le_refl _) s).2 hk⟩

theorem hasConsecutiveFreeSlots_iff (allSlots occupiedSlots : List ℕ) :
    ∀ (required startIdx : ℕ),
      hasConsecutiveFreeSlots allSlots occupiedSlots startIdx required = true ↔
        ∀ t < required, ∃ y, allSlots.get? (startIdx + t) = some y ∧
          occupiedSlots.contains y = false := by
  intro required
  induction required with
  | zero => intro startIdx; simp [hasConsecutiveFreeSlots]
  | succ required ih =>
    intro startIdx
    cases h : allSlots.get? startIdx with
    | none =>
      simp only [hasConsecutiveFreeSlots, h]
      constructor
      · intro hfalse; cases hfalse
      · intro hall
        rcases hall 0 (Nat.succ_pos _) with ⟨y, hy, -⟩
        rw [Nat.add_zero, h] at hy
        cases hy
    | some slot =>
      simp only [hasConsecutiveFreeSlots, h, Bool.and_eq_true, Bool.not_eq_true']
      rw [ih (startIdx + 1)]
      constructor
      · rintro ⟨hslot, hrest⟩ t ht
        cases t with
        | zero => exact ⟨slot, by simpa using h, hslot⟩
        | succ t =>
          have := hrest t (by omega)
          rwa [show startIdx + 1 + t = startIdx + (t + 1) by omega] at this
      · intro hall
        refine ⟨?_, ?_⟩
        · rcases hall 0 (Nat.succ_pos _) with ⟨y, hy, hyc⟩
          rw [Nat.add_zero, h] at hy
          obtain rfl := Option.some.inj hy
          exact hyc
        · intro t ht
          have := hall (t + 1) (by omega)
          rwa [show startIdx + (t + 1) = startIdx + 1 + t by omega] at this

theorem availGo_mem (allSlots occupiedSlots : List ℕ) (required : ℕ) :
    ∀ (fuel i : ℕ), allSlots.length - i ≤ fuel → ∀ s,
      s ∈ availGo allSlots occupiedSlots required fuel i ↔
        ∃ j, i ≤ j ∧ allSlots.get? j = some s ∧ occupiedSlots.contains s = false ∧
          hasConsecutiveFreeSlots allSlots occupiedSlots j required = true := by
  intro fuel
  induction fuel with
  | zero =>
    intro i hf s
    have hlen : allSlots.length ≤ i := by omega
    simp only [availGo, List.not_mem_nil, false_iff]
    rintro ⟨j, hij, hj, -⟩
    have : allSlots.get? j = none := List.get?_eq_none.2 (by omega)
    rw [this] at hj
    cases hj
  | succ fuel ih =>
    intro i hf s
    cases h : allSlots.get? i with
    | none =>
      have hlen : allSlots.length ≤ i := List.get?_eq_none.1 h
      simp only [availGo, h, List.not_mem_nil, false_iff]
      rintro ⟨j, hij, hj, -⟩
      have : allSlots.get? j = none := List.get?_eq_none.2 (by omega)
      rw [this] at hj
      cases hj
    | some slot =>
      have hilt : i < allSlots.length := by
        by_contra hcon
        rw [List.get?_eq_none.2 (by omega)] at h
        cases h
      have hf' : allSlots.length - (i + 1) ≤ fuel := by omega
      have hrest := ih (i + 1) hf' s
      have hsplit : (∃ j, i ≤ j ∧ allSlots.get? j = some s ∧
            occupiedSlots.contains s = false ∧
            hasConsecutiveFreeSlots allSlots occupiedSlots j required = true) ↔
          ((s = slot ∧ occupiedSlots.contains s = false ∧
            hasConsecutiveFreeSlots allSlots occupiedSlots i required = true) ∨
           (∃ j, i + 1 ≤ j ∧ allSlots.get? j = some s ∧
            occupiedSlots.contains s = false ∧
            hasConsecutiveFreeSlots allSlots occupiedSlots j required = true)) := by
        constructor
        · rintro ⟨j, hij, hj, hc, hcons⟩
          rcases Nat.eq_or_lt_of_le hij with rfl | hlt
          · rw [h] at hj
            exact Or.inl ⟨(Option.some.inj hj).symm, hc, hcons⟩
          · exact Or.inr ⟨j, hlt, hj, hc, hcons⟩
        · rintro (⟨rfl, hc, hcons⟩ | ⟨j, hij, hj, hc, hcons⟩)
          · exact ⟨i, Nat.le_refl i, h, hc, hcons⟩
          · exact ⟨j, by omega, hj, hc, hcons⟩
      rw [hsplit]
      by_cases hc : occupiedSlots.contains slot
      · simp only [availGo, h, if_pos hc]
        rw [hrest]
        constructor
        · intro hr; exact Or.inr hr
        · rintro (⟨rfl, hcf, -⟩ | hr)
          · rw [hc] at hcf; cases hcf
          · exact hr
      · by_cases hcons : hasConsecutiveFreeSlots allSlots occupiedSlots i required = true
        · simp only [availGo, h, if_neg hc, if_pos hcons, List.mem_cons]
          rw [hrest]
          constructor
          · rintro (rfl | hr)
            · exact Or.inl ⟨rfl, Bool.not_eq_true _ ▸ (by simpa using hc), hcons⟩
            · exact Or.inr hr
          · rintro (⟨rfl, -, -⟩ | hr)
            · exact Or.inl rfl
            · exact Or.inr hr
        · simp only [availGo, h, if_neg hc, if_neg hcons]
          rw [hrest]
          constructor
          · intro hr; exact Or.inr hr
          · rintro (⟨rfl, -, hconsT⟩ | hr)
            · exact absurd hconsT hcons
            · exact hr

theorem getAvailableSlots_mem (allSlots occupiedSlots : List ℕ)
    (serviceDuration interval : ℕ) (s : ℕ) :
    s ∈ getAvailableSlots allSlots occupiedSlots serviceDuration interval ↔
      ∃ j, allSlots.get? j = some s ∧ occupiedSlots.contains s = false ∧
        hasConsecutiveFreeSlots allSlots occupiedSlots j
          (calculateRequiredSlots serviceDuration interval) = true := by
  unfold getAvailableSlots
  rw [availGo_mem allSlots occupiedSlots _ allSlots.length 0 (by omega) s]
  constructor
  · rintro ⟨j, -, hj⟩; exact ⟨j, hj⟩
  · rintro ⟨j, hj⟩; exact ⟨j, Nat.zero_le j, hj⟩

/-- Claim C1, amended: the claim as frozen fails on busy intervals whose
start is off the slot grid; under the additional hypothesis that every
busy interval starts on the slot grid (its start is congruent to the
window start modulo the granularity — its end may be arbitrary), the
availability pipeline returns a candidate start `s` iff
`s + D ≤ window.end` and no busy interval overlaps `[s, s + D)`. -/
theorem c1_availability_grid_aligned
    {ws we D G : ℕ} {busy : List TimeRange}
    (hG : 0 < G) (hD : 0 < D)
    (hbusy : ∀ b ∈ busy, b.start < b.stop ∧ b.start % G = ws % G)
    {s : ℕ} (hs : s ∈ generateTimeSlots ws we G) :
    s ∈ availableStartTimes ws we busy D G ↔
      s + D ≤ we ∧ ∀ b ∈ busy, ¬ (b.start < s + D ∧ s < b.stop) := by
  set r := calculateRequiredSlots D G with hr
  have hr1 : 1 ≤ r := by
    rw [hr, calculateRequiredSlots, Nat.le_div_iff_mul_le hG]; omega
  have hrub : r * G ≤ D + G - 1 := by
    rw [hr, calculateRequiredSlots]; exact Nat.div_mul_le_self _ _
  have hrlb : D ≤ r * G := by
    have h1 := Nat.div_add_mod (D + G - 1) G
    have h2 := Nat.mod_lt (D + G - 1) hG
    have h3 : G * ((D + G - 1) / G) = ((D + G - 1) / G) * G := Nat.mul_comm _ _
    rw [hr, calculateRequiredSlots]
    omega
  have hrm : (r - 1) * G < D := by
    have h4 : (r - 1) * G = r * G - G := by rw [Nat.sub_mul, one_mul]
    omega
  obtain ⟨m, rfl, hswe⟩ := (generateTimeSlots_mem hG s).1 hs
  set occ := getOccupiedSlots busy G with hocc
  have hoccMem : ∀ y, occ.contains y = true ↔
      ∃ b ∈ busy, ∃ k, y = b.start + k * G ∧ y < b.stop := by
    intro y
    rw [show (occ.contains y = true) ↔ y ∈ occ by simp]
    exact getOccupiedSlots_mem hG busy y
  have hsmod : (ws + m * G) % G = ws % G := by simp [Nat.add_mul_mod_self_right]
  constructor
  · intro hmem
    simp only [availableStartTimes] at hmem
    rw [List.mem_filter] at hmem
    obtain ⟨hav, hacc⟩ := hmem
    have hend : ws + m * G + D ≤ we := by
      simpa [canAccommodateService, calculateEndTime] using hacc
    refine ⟨hend, ?_⟩
    obtain ⟨j, hj, hcont, hcons⟩ := (getAvailableSlots_mem _ _ _ _ _).1 hav
    have hjm : j = m := by
      have hjval := @generateTimeSlots_get? ws we G hG j
      rw [hj] at hjval
      by_cases hc : ws + j * G < we
      · rw [if_pos hc] at hjval
        have : ws + j * G = ws + m * G := (Option.some.inj hjval).symm
        have hjm' : j * G = m * G := by omega
        exact Nat.eq_of_mul_eq_mul_right hG hjm'
      · rw [if_neg hc] at hjval; cases hjval
    subst hjm
    have hfree : ∀ t < r, occ.contains (ws + j * G + t * G) = false := by
      intro t ht
      obtain ⟨y, hy, hyc⟩ := (hasConsecutiveFreeSlots_iff _ _ r j).1 hcons t ht
      have hyval := @generateTimeSlots_get? ws we G hG (j + t)
      rw [hy] at hyval
      by_cases hc : ws + (j + t) * G < we
      · rw [if_pos hc] at hyval
        obtain rfl := Option.some.inj hyval
        rwa [show ws + (j + t) * G = ws + j * G + t * G by ring] at hyc
      · rw [if_neg hc] at hyval; cases hyval
    rintro b hb ⟨hb1, hb2⟩
    obtain ⟨hbne, hbmod⟩ := hbusy b hb
    by_cases hbs : b.start ≤ ws + j * G
    · have hoc : occ.contains (ws + j * G) = true := by
        rw [hoccMem]
        refine ⟨b, hb, ?_⟩
        have hdvd : G ∣ (ws + j * G) - b.start := by
          apply (Nat.modEq_iff_dvd' hbs).1
          show b.start % G = (ws + j * G) % G
          rw [hsmod, hbmod]
        obtain ⟨k, hk⟩ := hdvd
        have hk' : G * k = k * G := Nat.mul_comm _ _
        exact ⟨k, by omega, hb2⟩
      have hfree0 := hfree 0 (by omega)
      rw [show ws + j * G + 0 * G = ws + j * G by ring, hoc] at hfree0
      cases hfree0
    · push_neg at hbs
      have hle : ws + j * G ≤ b.start := Nat.le_of_lt hbs
      have hdvd : G ∣ b.start - (ws + j * G) := by
        apply (Nat.modEq_iff_dvd' hle).1
        show (ws + j * G) % G = b.start % G
        rw [hsmod, hbmod]
      obtain ⟨t, ht⟩ := hdvd
      have ht' : G * t = t * G := Nat.mul_comm _ _
      have hbeq : b.start = ws + j * G + t * G := by omega
      have htr : t < r := by
        have h1 : t * G < D := by omega
        by_contra hge
        push_neg at hge
        have : r * G ≤ t * G := Nat.mul_le_mul_right G hge
        omega
      have hft := hfree t htr
      have hocct : occ.contains (ws + j * G + t * G) = true := by
        rw [hoccMem]
        refine ⟨b, hb, 0, by omega, by omega⟩
      rw [hocct] at hft
      cases hft
  · rintro ⟨hend, hno⟩
    simp only [availableStartTimes]
    rw [List.mem_filter]
    have hacc : canAccommodateService (ws + m * G) D we = true := by
      simp only [canAccommodateService, calculateEndTime]
      exact decide_eq_true hend
    refine ⟨?_, hacc⟩
    rw [getAvailableSlots_mem]
    refine ⟨m, ?_, ?_, ?_⟩
    · rw [generateTimeSlots_get? hG m, if_pos hswe]
    · cases hcc : occ.contains (ws + m * G) with
      | false => rfl
      | true =>
        exfalso
        obtain ⟨b, hb, k, hk, hlt⟩ := (hoccMem _).1 hcc
        have hk' : k * G = G * k := Nat.mul_comm _ _
        exact hno b hb ⟨by omega, by omega⟩
    · rw [hasConsecutiveFreeSlots_iff]
      intro t ht
      have h1 : ws + (m + t) * G = ws + m * G + t * G := by ring
      have h2 : t * G ≤ (r - 1) * G := Nat.mul_le_mul_right G (by omega)
      have hbound : ws + (m + t) * G < we := by omega
      refine ⟨ws + (m + t) * G, ?_, ?_⟩
      · rw [generateTimeSlots_get? hG (m + t), if_pos hbound]
      · cases hcc : occ.contains (ws + (m + t) * G) with
        | false => rfl
        | true =>
          exfalso
          obtain ⟨b, hb, k, hk, hlt⟩ := (hoccMem _).1 hcc
          have hk' : k * G = G * k := Nat.mul_comm _ _
          exact hno b hb ⟨by omega, by omega⟩

/-- Claim C1, counterexample to the claim as frozen: window 09:00–18:00
(540–1080), granularity 10, service duration 10, one busy interval
10:05–10:15 (605–615) whose endpoints are off the slot grid.  The
pipeline returns the candidate 10:00 (600) even though the busy interval
overlaps `[10:00, 10:10)`, so a returned start does not satisfy "no busy
interval overlaps `[s, s+D)`". -/
theorem c1_counterexample :
    600 ∈ availableStartTimes 540 1080 [⟨605, 615⟩] 10 10 ∧
    600 + 10 ≤ 1080 ∧ (605 < 600 + 10 ∧ 600 < 615) := by decide

/-- Claim C1, witness: window 09:00–18:00, granularity 10, duration 30,
busy interval 10:00–10:30 on the grid; the slot 10:30 (630) is returned
(spec Example 1). -/
theorem c1_witness :
    630 ∈ availableStartTimes 540 1080 [⟨600, 630⟩] 30 10 := by
  have h := @c1_availability_grid_aligned 540 1080 30 10 [⟨600, 630⟩]
    (by decide) (by decide) (by decide) 630 (by decide)
  exact h.mpr (by decide)

/-- Claim C6: for a window with `startM < endM` and granularity
`0 < G`, `generateTimeSlots` contains exactly the times `t` with
`t ∈ [startM, endM)` and `t = startM + k * G`, in strictly increasing
order; a slot beginning exactly at the closing time is never
produced. -/
theorem c6_generateTimeSlots_characterization
    {startM endM G : ℕ} (_hwin : startM < endM) (hG : 0 < G) :
    (∀ t, t ∈ generateTimeSlots startM endM G ↔
      (startM ≤ t ∧ t < endM ∧ ∃ k, t = startM + k * G)) ∧
    List.Pairwise (· < ·) (generateTimeSlots startM endM G) ∧
    endM ∉ generateTimeSlots startM endM G := by
  have hchar : ∀ t, t ∈ generateTimeSlots startM endM G ↔
      (startM ≤ t ∧ t < endM ∧ ∃ k, t = startM + k * G) := by
    intro t
    rw [generateTimeSlots_mem hG]
    constructor
    · rintro ⟨k, rfl, hlt⟩
      exact ⟨Nat.le_add_right _ _, hlt, k, rfl⟩
    · rintro ⟨hle, hlt, k, rfl⟩
      exact ⟨k, rfl, hlt⟩
  refine ⟨hchar, generateTimeSlots_pairwise hG, ?_⟩
  intro hmem
  have := (hchar endM).1 hmem
  omega

/-- Claim C6, witness: window 09:00–10:00 at granularity 25 contains
09:25 (565) and never the closing time 10:00 (600). -/
theorem c6_witness :
    565 ∈ generateTimeSlots 540 600 25 ∧ 600 ∉ generateTimeSlots 540 600 25 := by
  have h := @c6_generateTimeSlots_characterization 540 600 25 (by decide) (by decide)
  exact ⟨(h.1 565).mpr ⟨by decide, by decide, 1, by decide⟩, h.2.2⟩

/-- Claim C8: on valid half-open ranges (start strictly before end), the
three-disjunct test of `doTimeRangesOverlap` is equivalent to the spec's
overlap predicate `a.start < b.end ∧ b.start < a.end`. -/
theorem c8_overlap_refines_spec {a b : TimeRange}
    (ha : a.start < a.stop) (hb : b.start < b.stop) :
    doTimeRangesOverlap a b = true ↔ overlapSpec a b := by
  unfold doTimeRangesOverlap overlapSpec
  simp only [Bool.or_eq_true, Bool.and_eq_true, decide_eq_true_eq, ge_iff_le]
  omega

/-- Claim C8, witness: the ranges 05:00–10:00 and 08:00–12:00 overlap
under both formulations. -/
theorem c8_witness : overlapSpec ⟨300, 600⟩ ⟨480, 720⟩ :=
  (c8_overlap_refines_spec (a := ⟨300, 600⟩) (b := ⟨480, 720⟩)
    (by decide) (by decide)).mp (by decide)

/-- Claim C9: `validateScheduleTimes` fails with the invalid-range error
iff start ≥ end; given start < end it fails with a duration error iff
the duration is strictly below 120 or strictly above 720 minutes;
otherwise it is valid, and shifts of exactly 2 hours and exactly
12 hours are accepted. -/
theorem c9_validateScheduleTimes (s e : ℕ) :
    (validateScheduleTimes s e = .invalid .invalidRange ↔ e ≤ s)
  ∧ (s < e →
      ((validateScheduleTimes s e = .invalid .tooShort ↔ calculateDuration s e < 120)
    ∧ (validateScheduleTimes s e = .invalid .tooLong ↔ calculateDuration s e > 720)))
  ∧ (validateScheduleTimes s e = .valid ↔
      (s < e ∧ 120 ≤ calculateDuration s e ∧ calculateDuration s e ≤ 720))
  ∧ validateScheduleTimes s (s + 120) = .valid
  ∧ validateScheduleTimes s (s + 720) = .valid := by
  have h120 : validateScheduleTimes s (s + 120) = .valid := by
    unfold validateScheduleTimes calculateDuration
    split_ifs with h1 h2 h3
    · exact absurd h1 (by omega)
    · exfalso; push_cast at h2; omega
    · exfalso; push_cast at h3; omega
    · rfl
  have h720 : validateScheduleTimes s (s + 720) = .valid := by
    unfold validateScheduleTimes calculateDuration
    split_ifs with h1 h2 h3
    · exact absurd h1 (by omega)
    · exfalso; push_cast at h2; omega
    · exfalso; push_cast at h3; omega
    · rfl
  refine ⟨?_, ?_, ?_, h120, h720⟩
  · unfold validateScheduleTimes
    split_ifs with h1 h2 h3 <;> simp <;> omega
  · intro hlt
    unfold validateScheduleTimes
    split_ifs with h1 h2 h3 <;> simp <;> omega
  · unfold validateScheduleTimes
    split_ifs with h1 h2 h3 <;> simp [calculateDuration] at * <;> omega

/-- Claim C9, witness: an 08:00–10:00 shift (exactly two hours) is
accepted. -/
theorem c9_witness : validateScheduleTimes 480 600 = ValidationResult.valid :=
  (c9_validateScheduleTimes 480 120).2.2.2.1

/-! Lemmas about the budgeted integer slot loop. -/

theorem slotLoopF_some {i : ℤ} (hi : 0 < i) :
    ∀ (fuel : ℕ) (cur e : ℤ), (e - cur).toNat ≤ fuel →
      ∃ l, slotLoopF fuel cur e i = some l := by
  intro fuel
  induction fuel with
  | zero =>
    intro cur e hf
    have h : ¬ cur < e := by omega
    exact ⟨[], by simp [slotLoopF, h]⟩
  | succ fuel ih =>
    intro cur e hf
    by_cases h : cur < e
    · have hf' : (e - (cur + i)).toNat ≤ fuel := by omega
      obtain ⟨l, hl⟩ := ih (cur + i) e hf'
      exact ⟨cur :: l, by simp [slotLoopF, h, hl]⟩
    · exact ⟨[], by simp [slotLoopF, h]⟩

theorem slotLoopF_none {i : ℤ} (hi : i ≤ 0) :
    ∀ (fuel : ℕ) (cur e : ℤ), cur < e → slotLoopF fuel cur e i = none := by
  intro fuel
  induction fuel with
  | zero => intro cur e h; simp [slotLoopF, h]
  | succ fuel ih =>
    intro cur e h
    have h2 : cur + i < e := by omega
    simp [slotLoopF, h, ih (cur + i) e h2]

theorem getOccupiedSlotsF_some {i : ℤ} (hi : 0 < i) :
    ∀ (appts : List (ℤ × ℤ)) (fuel : ℕ), (∀ a ∈ appts, (a.2 - a.1).toNat ≤ fuel) →
      ∃ l, getOccupiedSlotsF fuel i appts = some l := by
  intro appts
  induction appts with
  | nil => intro fuel _; exact ⟨[], rfl⟩
  | cons a rest ih =>
    intro fuel hf
    obtain ⟨l, hl⟩ := slotLoopF_some hi fuel a.1 a.2 (hf a (List.mem_cons_self a rest))
    obtain ⟨l', hl'⟩ := ih fuel (fun b hb => hf b (List.mem_cons_of_mem a hb))
    exact ⟨l ++ l', by simp [getOccupiedSlotsF, hl, hl']⟩

theorem getOccupiedSlotsF_none {i : ℤ} (hi : i ≤ 0) :
    ∀ (appts : List (ℤ × ℤ)) (a : ℤ × ℤ), a ∈ appts → a.1 < a.2 →
      ∀ fuel, getOccupiedSlotsF fuel i appts = none := by
  intro appts
  induction appts with
  | nil => intro a ha; cases ha
  | cons b rest ih =>
    intro a ha hlt fuel
    rcases List.mem_cons.1 ha with rfl | ha'
    · simp [getOccupiedSlotsF, slotLoopF_none hi fuel a.1 a.2 hlt]
    · cases hb : slotLoopF fuel b.1 b.2 i with
      | none => simp [getOccupiedSlotsF, hb]
      | some l => simp [getOccupiedSlotsF, hb, ih a ha' hlt fuel]

theorem slotLoopF_eq_slotsGo {G : ℕ} (hG : 0 < G) :
    ∀ (fuel : ℕ) (cur e : ℕ), e - cur ≤ fuel →
      slotLoopF fuel (cur : ℤ) (e : ℤ) (G : ℤ) =
        some ((slotsGo e G fuel cur).map (fun n => (n : ℤ))) := by
  intro fuel
  induction fuel with
  | zero =>
    intro cur e hf
    have h : ¬ (cur : ℤ) < (e : ℤ) := by
      have : e ≤ cur := by omega
      exact_mod_cast Nat.not_lt.2 this
    simp [slotLoopF, slotsGo, h]
  | succ fuel ih =>
    intro cur e hf
    by_cases h : cur < e
    · have hz : (cur : ℤ) < (e : ℤ) := by exact_mod_cast h
      have hf' : e - (cur + G) ≤ fuel := by omega
      have hcast : (cur : ℤ) + (G : ℤ) = ((cur + G : ℕ) : ℤ) := by push_cast; ring
      rw [slotLoopF, if_pos hz, hcast, ih (cur + G) e hf']
      simp [slotsGo, h]
    · have hz : ¬ (cur : ℤ) < (e : ℤ) := by exact_mod_cast h
      simp [slotLoopF, slotsGo, h, hz]

/-- Claim C10: with a positive interval both slot loops terminate (some
step budget suffices, and the budgeted loop then computes exactly the
lists used by the availability pipeline), while for `interval ≤ 0` and a
non-empty range every step budget is exhausted — the loop never
terminates; the only caller-side guard, `defaultSlotInterval || 10`,
replaces only the falsy interval `0` and lets negative intervals
through. -/
theorem c10_slot_loop_termination :
    (∀ (s e i : ℤ), 0 < i → ∃ fuel l, slotLoopF fuel s e i = some l)
  ∧ (∀ (appts : List (ℤ × ℤ)) (i : ℤ), 0 < i →
      ∃ fuel l, getOccupiedSlotsF fuel i appts = some l)
  ∧ (∀ (s e G : ℕ), 0 < G →
      slotLoopF (e - s) (s : ℤ) (e : ℤ) (G : ℤ) =
        some ((generateTimeSlots s e G).map (fun n => (n : ℤ))))
  ∧ (∀ (s e i : ℤ), i ≤ 0 → s < e → ∀ fuel, slotLoopF fuel s e i = none)
  ∧ (∀ (appts : List (ℤ × ℤ)) (a : ℤ × ℤ) (i : ℤ), i ≤ 0 → a ∈ appts → a.1 < a.2 →
      ∀ fuel, getOccupiedSlotsF fuel i appts = none)
  ∧ defaultSlotIntervalOr10 0 = 10 ∧ defaultSlotIntervalOr10 (-5) = -5 := by
  refine ⟨?_, ?_, ?_, ?_, ?_, rfl, rfl⟩
  · intro s e i hi
    exact ⟨(e - s).toNat, slotLoopF_some hi (e - s).toNat s e (Nat.le_refl _)⟩
  · intro appts i hi
    have hbound : ∃ F, ∀ a ∈ appts, (a.2 - a.1).toNat ≤ F := by
      induction appts with
      | nil => exact ⟨0, by simp⟩
      | cons a rest ih =>
        obtain ⟨F, hF⟩ := ih
        refine ⟨max (a.2 - a.1).toNat F, ?_⟩
        intro b hb
        rcases List.mem_cons.1 hb with rfl | hb'
        · exact le_max_left _ _
        · exact le_trans (hF b hb') (le_max_right _ _)
    obtain ⟨F, hF⟩ := hbound
    exact ⟨F, getOccupiedSlotsF_some hi appts F hF⟩
  · intro s e G hG
    exact slotLoopF_eq_slotsGo hG (e - s) s e (Nat.le_refl _)
  · intro s e i hi hlt fuel
    exact slotLoopF_none hi fuel s e hlt
  · intro appts a i hi ha hlt fuel
    exact getOccupiedSlotsF_none hi appts a ha hlt fuel

/-- Claim C10, witness: the loop over 09:00–10:00 terminates at interval
10 and matches the slot list, while at interval −5 it exhausts every
budget (shown at budget 1000), as does `getOccupiedSlots` on an
appointment 09:00–10:00; the caller guard maps 0 to 10 but leaves −5
untouched. -/
theorem c10_witness :
    (∃ fuel l, slotLoopF fuel 540 600 10 = some l)
  ∧ slotLoopF 1000 540 600 (-5) = none
  ∧ getOccupiedSlotsF 1000 (-5) [(540, 600)] = none
  ∧ defaultSlotIntervalOr10 (-5) = -5 :=
  ⟨c10_slot_loop_termination.1 540 600 10 (by decide),
   c10_slot_loop_termination.2.2.2.1 540 600 (-5) (by decide) (by decide) 1000,
   c10_slot_loop_termination.2.2.2.2.1 [(540, 600)] (540, 600) (-5) (by decide)
     (List.mem_cons_self _ _) (by decide) 1000,
   c10_slot_loop_termination.2.2.2.2.2.2⟩

/-- Claim C5: whenever the assignment loop of `create` succeeds, service
`i` (in input order) is assigned the interval starting at the overall
start plus the sum of the durations of the services before it and ending
at that start plus its own duration, with order index `i` — for every
resolution function, i.e. regardless of which employee each step
resolves. -/
theorem c5_sequential_plan (resolve : ℕ → ℕ → ℕ → Except CreateError ℕ) :
    ∀ (durations : List ℕ) (startM idx : ℕ) (l : List Assignment),
      buildAssignments resolve durations startM idx = .ok l →
        l.length = durations.length ∧
        ∀ i (hi : i < l.length) (hd : i < durations.length),
          (l.get ⟨i, hi⟩).startM = startM + (durations.take i).sum ∧
          (l.get ⟨i, hi⟩).stopM = startM + (durations.take i).sum + durations.get ⟨i, hd⟩ ∧
          (l.get ⟨i, hi⟩).orderIndex = idx + i := by
  intro durations
  induction durations with
  | nil =>
    intro startM idx l hl
    simp only [buildAssignments] at hl
    obtain rfl := (Except.ok.inj hl).symm
    exact ⟨rfl, by intro i hi hd; cases hi⟩
  | cons d rest ih =>
    intro startM idx l hl
    simp only [buildAssignments] at hl
    cases hres : resolve idx startM (calculateEndTime startM d) with
    | error e => rw [hres] at hl; cases hl
    | ok emp =>
      rw [hres] at hl
      cases hrec : buildAssignments resolve rest (calculateEndTime startM d) (idx + 1) with
      | error e => rw [hrec] at hl; cases hl
      | ok l' =>
        rw [hrec] at hl
        obtain rfl := (Except.ok.inj hl).symm
        obtain ⟨hlen, hget⟩ := ih (calculateEndTime startM d) (idx + 1) l' hrec
        constructor
        · simpa using hlen
        · intro i hi hd
          cases i with
          | zero =>
            refine ⟨by simp [calculateEndTime], ?_, by simp⟩
            simp [calculateEndTime]
          | succ i =>
            have hi' : i < l'.length := by simpa using hi
            have hd' : i < rest.length := by simpa using hd
            obtain ⟨h1, h2, h3⟩ := hget i hi' hd'
            refine ⟨?_, ?_, ?_⟩
            · show (l'.get ⟨i, hi'⟩).startM = startM + ((d :: rest).take (i + 1)).sum
              rw [h1]
              simp [calculateEndTime, Nat.add_assoc]
            · show (l'.get ⟨i, hi'⟩).stopM =
                startM + ((d :: rest).take (i + 1)).sum + (d :: rest).get ⟨i + 1, hd⟩
              rw [h2]
              simp [calculateEndTime, Nat.add_assoc]
            · show (l'.get ⟨i, hi'⟩).orderIndex = idx + (i + 1)
              rw [h3]
              omega

/-- Claim C5, witness: services of 30 and 20 minutes from 10:00 (600)
with a constant resolver yield the plan 10:00–10:30, 10:30–10:50 (spec
Example 2), and the plan has one row per service. -/
theorem c5_witness :
    buildAssignments (fun _ _ _ => Except.ok 7) [30, 20] 600 0 =
      Except.ok [⟨7, 600, 630, 0⟩, ⟨7, 630, 650, 1⟩] ∧
    ([(⟨7, 600, 630, 0⟩ : Assignment), ⟨7, 630, 650, 1⟩]).length = [30, 20].length := by
  have h := c5_sequential_plan (fun _ _ _ => Except.ok 7) [30, 20] 600 0
    [⟨7, 600, 630, 0⟩, ⟨7, 630, 650, 1⟩] rfl
  exact ⟨rfl, h.1⟩

/-- `List.find?` returns the first element satisfying the predicate:
characterization used for the auto-assignment search. -/
theorem find?_eq_some_first {α : Type} (p : α → Bool) :
    ∀ (l : List α) (a : α),
      l.find? p = some a ↔
        p a = true ∧ ∃ pre suf, l = pre ++ a :: suf ∧ ∀ x ∈ pre, p x = false := by
  intro l
  induction l with
  | nil =>
    intro a
    constructor
    · intro h; cases h
    · rintro ⟨-, pre, suf, h, -⟩
      exact absurd h (by simp)
  | cons b rest ih =>
    intro a
    by_cases hb : p b
    · rw [List.find?_cons_of_pos rest hb]
      constructor
      · intro h
        obtain rfl := Option.some.inj h
        exact ⟨hb, [], rest, rfl, by simp⟩
      · rintro ⟨hpa, pre, suf, heq, hpre⟩
        cases pre with
        | nil =>
          obtain rfl : b = a := by simpa using congrArg (fun l => l.head?) heq
          rfl
        | cons c pre' =>
          have hcb : b = c := by simpa using congrArg (fun l => l.head?) heq
          have hpc := hpre c (List.mem_cons_self _ _)
          rw [← hcb, hb] at hpc
          cases hpc
    · rw [List.find?_cons_of_neg rest (by simpa using hb)]
      rw [ih a]
      constructor
      · rintro ⟨hpa, pre, suf, rfl, hpre⟩
        refine ⟨hpa, b :: pre, suf, rfl, ?_⟩
        intro x hx
        rcases List.mem_cons.1 hx with rfl | hx'
        · simpa using hb
        · exact hpre x hx'
      · rintro ⟨hpa, pre, suf, heq, hpre⟩
        cases pre with
        | nil =>
          obtain rfl : b = a := by simpa using congrArg (fun l => l.head?) heq
          rw [hpa] at hb
          cases hb rfl
        | cons c pre' =>
          have htail : rest = pre' ++ a :: suf := by simpa using congrArg List.tail heq
          exact ⟨hpa, pre', suf, htail, fun x hx => hpre x (List.mem_cons_of_mem _ hx)⟩

/-- Claim C7: `findAvailableEmployee` returns the first employee of the
salon's list that can perform the service and passes the availability
check, and returns `none` exactly when no listed employee passes both;
the availability check holds iff the employee has an available weekday
schedule containing `[startM, endM)` that overlaps no active
appointment-service interval. -/
theorem c7_findAvailableEmployee (env : EmployeeEnv) (serviceId startM endM : ℕ) :
    (∀ emp, findAvailableEmployee env serviceId startM endM = some emp ↔
      ((env.canPerform emp serviceId = true ∧
        validateEmployeeAvailability (env.schedOf emp) (env.busyOf emp) startM endM = true) ∧
       ∃ pre suf, env.salonEmployees = pre ++ emp :: suf ∧
         ∀ x ∈ pre, ¬(env.canPerform x serviceId = true ∧
           validateEmployeeAvailability (env.schedOf x) (env.busyOf x) startM endM = true)))
  ∧ (findAvailableEmployee env serviceId startM endM = none ↔
      ∀ x ∈ env.salonEmployees, ¬(env.canPerform x serviceId = true ∧
        validateEmployeeAvailability (env.schedOf x) (env.busyOf x) startM endM = true))
  ∧ (∀ sched busy s t, validateEmployeeAvailability sched busy s t = true ↔
      ∃ w, sched = some w ∧ w.isAvailable = true ∧ w.startM ≤ s ∧ t ≤ w.stopM ∧
        ∀ b ∈ busy, ¬(s < b.stop ∧ b.start < t)) := by
  refine ⟨?_, ?_, ?_⟩
  · intro emp
    unfold findAvailableEmployee
    rw [find?_eq_some_first]
    simp only [Bool.and_eq_true, Bool.not_eq_true]
    constructor
    · rintro ⟨hpa, pre, suf, heq, hpre⟩
      refine ⟨hpa, pre, suf, heq, ?_⟩
      intro x hx ⟨h1, h2⟩
      have := hpre x hx
      rw [h1, h2] at this
      cases this
    · rintro ⟨hpa, pre, suf, heq, hpre⟩
      refine ⟨hpa, pre, suf, heq, ?_⟩
      intro x hx
      have := hpre x hx
      cases h1 : env.canPerform x serviceId with
      | false => simp [h1]
      | true =>
        cases h2 : validateEmployeeAvailability (env.schedOf x) (env.busyOf x) startM endM with
        | false => simp [h1, h2]
        | true => exact absurd ⟨h1, h2⟩ this
  · unfold findAvailableEmployee
    rw [List.find?_eq_none]
    constructor
    · intro h x hx ⟨h1, h2⟩
      have := h x hx
      rw [h1, h2] at this
      cases this rfl
    · intro h x hx
      have := h x hx
      cases h1 : env.canPerform x serviceId with
      | false => simp [h1]
      | true =>
        cases h2 : validateEmployeeAvailability (env.schedOf x) (env.busyOf x) startM endM
          with
        | false => simp [h1, h2]
        | true => exact absurd ⟨h1, h2⟩ this
  · intro sched busy s t
    cases sched with
    | none => simp [validateEmployeeAvailability]
    | some w =>
      simp only [validateEmployeeAvailability, Option.some.injEq]
      cases hw : w.isAvailable with
      | false =>
        simp only [hw, Bool.not_false, if_pos]
        constructor
        · intro h; cases h
        · rintro ⟨w', rfl, hw', -⟩
          rw [hw] at hw'
          cases hw'
      | true =>
        simp only [hw, Bool.not_true, Bool.false_eq_true, if_false]
        by_cases hrange : s < w.startM ∨ t > w.stopM
        · rw [if_pos (by simpa using hrange)]
          constructor
          · intro h; cases h
          · rintro ⟨w', rfl, -, hs, ht, -⟩
            omega
        · rw [if_neg (by simpa using hrange)]
          push_neg at hrange
          rw [List.all_eq_true]
          constructor
          · intro h
            refine ⟨w, rfl, hw, by omega, by omega, ?_⟩
            intro b hb ⟨hb1, hb2⟩
            have := h b hb
            simp only [Bool.not_eq_true', Bool.and_eq_false_iff] at this
            rcases this with h' | h'
            · rw [decide_eq_false_iff_not] at h'; omega
            · rw [decide_eq_false_iff_not] at h'; omega
          · rintro ⟨w', heq, -, -, -, hno⟩
            obtain rfl := heq
            intro b hb
            have := hno b hb
            simp only [Bool.not_eq_true', Bool.and_eq_false_iff]
            by_cases hc : s < b.stop
            · right
              rw [decide_eq_false_iff_not]
              intro hgt
              exact this ⟨hc, by omega⟩
            · left
              rw [decide_eq_false_iff_not]
              omega

/-- Claim C7, witness: with one capable, free employee the search
returns that employee. -/
theorem c7_witness :
    findAvailableEmployee
      ⟨[1], fun _ _ => true, fun _ => some ⟨true, 540, 1080⟩, fun _ => []⟩ 5 600 660 =
      some 1 :=
  ((c7_findAvailableEmployee
      ⟨[1], fun _ _ => true, fun _ => some ⟨true, 540, 1080⟩, fun _ => []⟩ 5 600 660).1 1).mpr
    ⟨⟨rfl, by decide⟩, [], [], rfl, by simp⟩

/-- Claim C4, counterexample to the claim as frozen: the transition
completed→pending is not in the spec's transition table, yet
`updateStatus` on an appointment stored as completed succeeds and sets
the status to pending. -/
theorem c4_counterexample :
    specAllowedTransition Status.completed Status.pending = false ∧
    updateStatus [⟨1, Status.completed, none⟩] 1 Status.pending none =
      Except.ok [⟨1, Status.pending, none⟩] :=
  ⟨rfl, rfl⟩

/-- Claim C4, amended: `updateStatus` performs no transition check — for
every store, appointment id and requested status, it succeeds whenever
the appointment exists, unconditionally writing the requested status
(and reason) onto the row, and errors only when the id is absent. -/
theorem c4_updateStatus_unconditional (store : List StoredAppointment) (id : ℕ)
    (newStatus : Status) (reason : Option String) :
    (∀ a, findAppt store id = some a →
      updateStatus store id newStatus reason =
        .ok (store.map fun r =>
          if r.id = id then { r with status := newStatus, cancellationReason := reason }
          else r))
  ∧ (findAppt store id = none → updateStatus store id newStatus reason = .error ()) := by
  constructor
  · intro a ha
    unfold updateStatus
    rw [ha]
  · intro ha
    unfold updateStatus
    rw [ha]

/-- Claim C4, witness: the (also invalid) transition pending→completed
goes through unchecked. -/
theorem c4_witness :
    updateStatus [⟨2, Status.pending, none⟩] 2 Status.completed none =
      Except.ok [⟨2, Status.completed, none⟩] := by
  have h := (c4_updateStatus_unconditional [⟨2, Status.pending, none⟩] 2
    Status.completed none).1 ⟨2, Status.pending, none⟩ rfl
  exact h.trans rfl

/-- Claim C2, counterexample to the claim as frozen: starting from an
empty store, when the appointment row insert succeeds and the
appointment-service insert fails, the failure is reported but the
reservation's appointment row remains stored — the reservation is left
partial, with no compensating delete. -/
theorem c2_counterexample :
    (persistBooking ⟨[], []⟩ 1 [10] false true).2 = false ∧
    1 ∈ (persistBooking ⟨[], []⟩ 1 [10] false true).1.appointments := by
  decide

/-- Claim C2, amended: the persistence tail of `create` has no rollback.
If the appointment insert fails nothing is stored; if the
appointment-service insert fails after the appointment insert succeeded,
the appointment row remains stored and the failure is reported; on
success both the appointment row and all service rows are stored. -/
theorem c2_persistence_no_rollback (db : Db) (apptId : ℕ) (serviceIds : List ℕ)
    (apptInsertFails svcInsertFails : Bool) :
    (apptInsertFails = true →
      persistBooking db apptId serviceIds apptInsertFails svcInsertFails = (db, false))
  ∧ (apptInsertFails = false → svcInsertFails = true →
      persistBooking db apptId serviceIds apptInsertFails svcInsertFails =
        ({ db with appointments := db.appointments ++ [apptId] }, false))
  ∧ (apptInsertFails = false → svcInsertFails = false →
      persistBooking db apptId serviceIds apptInsertFails svcInsertFails =
        ({ appointments := db.appointments ++ [apptId],
           appointmentServices :=
             db.appointmentServices ++ serviceIds.map (fun s => (apptId, s)) }, true)) := by
  refine ⟨?_, ?_, ?_⟩
  · rintro rfl; simp [persistBooking]
  · rintro rfl rfl; simp [persistBooking]
  · rintro rfl rfl; simp [persistBooking]

/-- Claim C2, witness: a failing service-row insert leaves the
appointment row behind. -/
theorem c2_witness :
    persistBooking ⟨[], []⟩ 3 [5] false true = (⟨[3], []⟩, false) := by
  have h := (c2_persistence_no_rollback ⟨[], []⟩ 3 [5] false true).2.1 rfl rfl
  exact h.trans rfl

/-- Claim C3: `create` never applies the temporal policy.  With the
clock at minute 600, a booking at minute 660 (one hour ahead) and
`minAdvanceBookingHours = 2`, the `create` pipeline accepts the request
and plans the assignment, although `validateAppointmentDateTime` — the
policy the claim describes, present in the source but never invoked on
this path — would reject it as too soon. -/
theorem c3_create_skips_temporal_policy :
    createModel
      ⟨some ⟨false, 2, 90⟩,
       fun sid => if sid = 5 then some (30, 1) else none,
       fun eid => if eid = 7 then some 1 else none,
       ⟨[7], fun _ _ => true, fun _ => some ⟨true, 540, 1080⟩, fun _ => []⟩,
       600⟩
      1 [⟨5, some 7⟩] 660 =
      Except.ok (Status.confirmed, [⟨7, 660, 690, 0⟩]) ∧
    validateAppointmentDateTime 600 660 2 90 (some ⟨true, 540, 1080⟩) 660 30 =
      Except.error DateTimeError.tooSoon :=
  ⟨rfl, rfl⟩

end SalonOne
